import Mathlib

/-!
Verification of the SlipLib core (`sliplib/slip.py`): the SLIP escape codec
(`encode`, `decode`, `is_valid`), the stateful frame engine (`Driver` with its
`send`, `receive` and `get` operations), and the global framing configuration
with its scoped override (`use_leading_end_byte`).

Byte strings are modelled as `List Nat` (each element a byte value 0..255;
no arithmetic overflows occur, the code only compares and concatenates bytes).
Python exceptions are modelled with `Except`; the `Driver`'s mutable state is
modelled by explicit state passing.
-/

namespace Slip

/-- The SLIP END byte `b"\xc0"` (`_Configuration._END`). -/
def END : Nat := 0xC0

/-- The SLIP ESC byte `b"\xdb"` (`_Configuration._ESC`). -/
def ESC : Nat := 0xDB

/-- The escaped value of an END byte, `b"\xdc"` (`_Configuration._ESC_END`). -/
def ESC_END : Nat := 0xDC

/-- The escaped value of an ESC byte, `b"\xdd"` (`_Configuration._ESC_ESC`). -/
def ESC_ESC : Nat := 0xDD

/-- Models Python `s.replace(bytes([p]), rep)` for a single-byte pattern `p`:
every occurrence of the byte `p` is replaced by `rep`, scanning left to right. -/
def replace1 (p : Nat) (rep : List Nat) : List Nat → List Nat
  | [] => []
  | b :: rest => (if b = p then rep else [b]) ++ replace1 p rep rest

/-- Models Python `s.replace(bytes([p, q]), rep)` for a two-byte pattern:
non-overlapping occurrences of the pair `p, q` are replaced by `rep`,
scanning left to right (after a match the scan resumes past the match). -/
def replace2 (p q : Nat) (rep : List Nat) : List Nat → List Nat
  | [] => []
  | [a] => [a]
  | a :: b :: rest =>
      if a = p ∧ b = q then rep ++ replace2 p q rep rest
      else a :: replace2 p q rep (b :: rest)

/-- Embeds `encode` (slip.py line 285-286):
`msg.replace(ESC, ESC + ESC_ESC).replace(END, ESC + ESC_END)`. -/
def encode (msg : List Nat) : List Nat :=
  replace1 END [ESC, ESC_END] (replace1 ESC [ESC, ESC_ESC] msg)

/-- Embeds the regular-expression search in `is_valid`
(`re.search(ESC + b"[^" + ESC_END + ESC_ESC + b"]", packet)`): true iff some
ESC byte is immediately followed by a byte other than ESC_END or ESC_ESC. -/
def hasBadEscape : List Nat → Bool
  | a :: b :: rest =>
      if a = ESC ∧ ¬(b = ESC_END ∨ b = ESC_ESC) then true
      else hasBadEscape (b :: rest)
  | _ => false

/-- Embeds `is_valid` (slip.py line 318-336):
`not (END in packet or packet.endswith(ESC) or re.search(...))`. -/
def is_valid (packet : List Nat) : Bool :=
  !(decide (END ∈ packet) || decide (packet.getLast? = some ESC) || hasBadEscape packet)

/-- Embeds `decode` (slip.py line 289-315).  A Python `raise ProtocolError(packet)`
is modelled as `Except.error packet`; the valid case is
`packet.replace(ESC + ESC_END, END).replace(ESC + ESC_ESC, ESC)`. -/
def decode (packet : List Nat) : Except (List Nat) (List Nat) :=
  if is_valid packet then
    Except.ok (replace2 ESC ESC_ESC [ESC] (replace2 ESC ESC_END [END] packet))
  else
    Except.error packet

/-- Specification-side description of the encoding substitution applied to each
byte independently and simultaneously: ESC becomes the pair ESC, ESC_ESC and
END becomes the pair ESC, ESC_END; all other bytes are kept. -/
def escapeEach : List Nat → List Nat
  | [] => []
  | b :: rest =>
      (if b = ESC then [ESC, ESC_ESC]
       else if b = END then [ESC, ESC_END]
       else [b]) ++ escapeEach rest

/-- Intermediate form used in the round-trip proof: the image of a message after
the first `decode` substitution has been applied to its encoding (END bytes are
back in clear form, ESC bytes are still escaped). -/
def halfEscaped : List Nat → List Nat
  | [] => []
  | b :: rest => (if b = ESC then [ESC, ESC_ESC] else [b]) ++ halfEscaped rest

/-- Specification-side description of decoding: every ESC, ESC_END pair is
replaced by END and every ESC, ESC_ESC pair by ESC, scanning left to right. -/
def unescape : List Nat → List Nat
  | [] => []
  | [a] => [a]
  | a :: b :: rest =>
      if a = ESC then
        if b = ESC_END then END :: unescape rest
        else if b = ESC_ESC then ESC :: unescape rest
        else a :: unescape (b :: rest)
      else a :: unescape (b :: rest)

/-- The two sequential `bytes.replace` substitutions of `encode` applied in the
opposite order: first END bytes, then ESC bytes. -/
def swappedEncode (msg : List Nat) : List Nat :=
  replace1 ESC [ESC, ESC_ESC] (replace1 END [ESC, ESC_END] msg)

theorem replace1_append (p : Nat) (rep x y : List Nat) :
    replace1 p rep (x ++ y) = replace1 p rep x ++ replace1 p rep y := by
  induction x with
  | nil => simp [replace1]
  | cons b rest ih => simp [replace1, ih]

theorem encode_eq_escapeEach (m : List Nat) : encode m = escapeEach m := by
  induction m with
  | nil => simp [encode, replace1, escapeEach]
  | cons b rest ih =>
      simp only [encode, END, ESC, ESC_END, ESC_ESC] at ih ⊢
      by_cases hesc : b = 0xDB
      · subst hesc
        simp [replace1, escapeEach, replace1_append, END, ESC, ESC_END, ESC_ESC, ih]
      · by_cases hend : b = 0xC0
        · subst hend
          simp [replace1, escapeEach, replace1_append, END, ESC, ESC_END, ESC_ESC, ih]
        · simp [replace1, escapeEach, replace1_append, END, ESC, ESC_END, ESC_ESC,
            hesc, hend, ih]

theorem end_not_mem_escapeEach (m : List Nat) : END ∉ escapeEach m := by
  induction m with
  | nil => simp [escapeEach]
  | cons b rest ih =>
      simp only [END, ESC, ESC_END, ESC_ESC] at ih ⊢
      by_cases hesc : b = 0xDB
      · subst hesc
        simp [escapeEach, END, ESC, ESC_END, ESC_ESC, ih]
      · by_cases hend : b = 0xC0
        · subst hend
          simp [escapeEach, END, ESC, ESC_END, ESC_ESC, ih]
        · simp [escapeEach, END, ESC, ESC_END, ESC_ESC, hesc, hend, ih]
          intro h
          exact hend h.symm

theorem hasBadEscape_cons_of_ne (x : Nat) (t : List Nat) (hx : x ≠ ESC) :
    hasBadEscape (x :: t) = hasBadEscape t := by
  cases t with
  | nil => simp [hasBadEscape]
  | cons b r => simp [hasBadEscape, hx]

theorem hasBadEscape_escapeEach (m : List Nat) : hasBadEscape (escapeEach m) = false := by
  induction m with
  | nil => simp [escapeEach, hasBadEscape]
  | cons b rest ih =>
      by_cases hesc : b = ESC
      · subst hesc
        have h1 : escapeEach (ESC :: rest) = ESC :: ESC_ESC :: escapeEach rest := by
          simp [escapeEach]
        rw [h1]
        have h2 : hasBadEscape (ESC :: ESC_ESC :: escapeEach rest)
            = hasBadEscape (ESC_ESC :: escapeEach rest) := by
          simp [hasBadEscape, ESC, ESC_END, ESC_ESC]
        rw [h2, hasBadEscape_cons_of_ne _ _ (by decide), ih]
      · by_cases hend : b = END
        · subst hend
          have h1 : escapeEach (END :: rest) = ESC :: ESC_END :: escapeEach rest := by
            simp [escapeEach, END, ESC]
          rw [h1]
          have h2 : hasBadEscape (ESC :: ESC_END :: escapeEach rest)
              = hasBadEscape (ESC_END :: escapeEach rest) := by
            simp [hasBadEscape, ESC, ESC_END, ESC_ESC]
          rw [h2, hasBadEscape_cons_of_ne _ _ (by decide), ih]
        · have h1 : escapeEach (b :: rest) = b :: escapeEach rest := by
            simp [escapeEach, hesc, hend]
          rw [h1, hasBadEscape_cons_of_ne _ _ hesc, ih]

theorem getLast?_escapeEach_ne (m : List Nat) : (escapeEach m).getLast? ≠ some ESC := by
  induction m with
  | nil => simp [escapeEach]
  | cons b rest ih =>
      rcases h : escapeEach rest with _ | ⟨c, t⟩
      · rw [h] at ih
        by_cases hesc : b = ESC
        · subst hesc
          simp [escapeEach, h, ESC, ESC_ESC]
        · by_cases hend : b = END
          · subst hend
            simp [escapeEach, h, END, ESC, ESC_END]
          · simp [escapeEach, h, hesc, hend]
      · rw [h] at ih
        have h1 : escapeEach (b :: rest)
            = (if b = ESC then [ESC, ESC_ESC]
               else if b = END then [ESC, ESC_END]
               else [b]) ++ (c :: t) := by
          rw [escapeEach, h]
        rw [h1, List.getLast?_append_cons]
        exact ih

theorem is_valid_escapeEach (m : List Nat) : is_valid (escapeEach m) = true := by
  have h1 := end_not_mem_escapeEach m
  have h2 := getLast?_escapeEach_ne m
  have h3 := hasBadEscape_escapeEach m
  simp [is_valid, h1, h2, h3]

theorem is_valid_encode (m : List Nat) : is_valid (encode m) = true := by
  rw [encode_eq_escapeEach]
  exact is_valid_escapeEach m

theorem replace2_cons_of_ne (p q x : Nat) (rep t : List Nat) (hx : x ≠ p) :
    replace2 p q rep (x :: t) = x :: replace2 p q rep t := by
  cases t with
  | nil => simp [replace2]
  | cons b r => simp [replace2, hx]

theorem replace2_escEnd_escapeEach (m : List Nat) :
    replace2 ESC ESC_END [END] (escapeEach m) = halfEscaped m := by
  induction m with
  | nil => simp [escapeEach, halfEscaped, replace2]
  | cons b rest ih =>
      by_cases hesc : b = ESC
      · subst hesc
        have h1 : escapeEach (ESC :: rest) = ESC :: ESC_ESC :: escapeEach rest := by
          simp [escapeEach]
        have h2 : halfEscaped (ESC :: rest) = ESC :: ESC_ESC :: halfEscaped rest := by
          simp [halfEscaped]
        rw [h1, h2]
        have h3 : replace2 ESC ESC_END [END] (ESC :: ESC_ESC :: escapeEach rest)
            = ESC :: replace2 ESC ESC_END [END] (ESC_ESC :: escapeEach rest) := by
          simp [replace2, ESC, ESC_END, ESC_ESC]
        rw [h3, replace2_cons_of_ne _ _ _ _ _ (by decide), ih]
      · by_cases hend : b = END
        · subst hend
          have h1 : escapeEach (END :: rest) = ESC :: ESC_END :: escapeEach rest := by
            simp [escapeEach, END, ESC]
          have h2 : halfEscaped (END :: rest) = END :: halfEscaped rest := by
            simp [halfEscaped, END, ESC]
          rw [h1, h2]
          have h3 : replace2 ESC ESC_END [END] (ESC :: ESC_END :: escapeEach rest)
              = END :: replace2 ESC ESC_END [END] (escapeEach rest) := by
            simp [replace2]
          rw [h3, ih]
        · have h1 : escapeEach (b :: rest) = b :: escapeEach rest := by
            simp [escapeEach, hesc, hend]
          have h2 : halfEscaped (b :: rest) = b :: halfEscaped rest := by
            simp [halfEscaped, hesc]
          rw [h1, h2, replace2_cons_of_ne _ _ _ _ _ hesc, ih]

theorem replace2_escEsc_halfEscaped (m : List Nat) :
    replace2 ESC ESC_ESC [ESC] (halfEscaped m) = m := by
  induction m with
  | nil => simp [halfEscaped, replace2]
  | cons b rest ih =>
      by_cases hesc : b = ESC
      · subst hesc
        have h1 : halfEscaped (ESC :: rest) = ESC :: ESC_ESC :: halfEscaped rest := by
          simp [halfEscaped]
        have h2 : replace2 ESC ESC_ESC [ESC] (ESC :: ESC_ESC :: halfEscaped rest)
            = ESC :: replace2 ESC ESC_ESC [ESC] (halfEscaped rest) := by
          simp [replace2]
        rw [h1, h2, ih]
      · have h1 : halfEscaped (b :: rest) = b :: halfEscaped rest := by
          simp [halfEscaped, hesc]
        rw [h1, replace2_cons_of_ne _ _ _ _ _ hesc, ih]

theorem decode_encode (m : List Nat) : decode (encode m) = Except.ok m := by
  rw [decode, is_valid_encode m, if_pos rfl, encode_eq_escapeEach,
    replace2_escEnd_escapeEach, replace2_escEsc_halfEscaped]

/-- Claim C1: for every byte sequence `m` (including the empty sequence and
sequences consisting only of END and ESC bytes), `decode (encode m)` returns
`m` exactly (in the embedding, `decode` succeeds with `Except.ok m`). -/
theorem decode_encode_roundtrip (m : List Nat) : decode (encode m) = Except.ok m :=
  decode_encode m

theorem hasBadEscape_append_bad (u : List Nat) (b : Nat) (v : List Nat)
    (h1 : b ≠ ESC_END) (h2 : b ≠ ESC_ESC) :
    hasBadEscape (u ++ ESC :: b :: v) = true := by
  induction u with
  | nil => simp [hasBadEscape, h1, h2]
  | cons x u' ih =>
      rcases hu : u' ++ ESC :: b :: v with _ | ⟨c, rest⟩
      · exact absurd hu (by simp)
      · rw [List.cons_append, hu]
        by_cases hx : x = ESC ∧ ¬(c = ESC_END ∨ c = ESC_ESC)
        · simp [hasBadEscape, hx]
        · simp only [hasBadEscape, if_neg hx]
          rw [← hu]
          exact ih

theorem hasBadEscape_iff (p : List Nat) :
    hasBadEscape p = true ↔
      ∃ u b v, p = u ++ ESC :: b :: v ∧ b ≠ ESC_END ∧ b ≠ ESC_ESC := by
  constructor
  · intro h
    induction p with
    | nil => simp [hasBadEscape] at h
    | cons a t ih =>
        cases t with
        | nil => simp [hasBadEscape] at h
        | cons b r =>
            by_cases hc : a = ESC ∧ ¬(b = ESC_END ∨ b = ESC_ESC)
            · refine ⟨[], b, r, ?_, ?_, ?_⟩
              · rw [hc.1]
                rfl
              · intro hb
                exact hc.2 (Or.inl hb)
              · intro hb
                exact hc.2 (Or.inr hb)
            · simp only [hasBadEscape, if_neg hc] at h
              obtain ⟨u, c, v, he, hc1, hc2⟩ := ih h
              exact ⟨a :: u, c, v, by rw [List.cons_append, ← he], hc1, hc2⟩
  · rintro ⟨u, b, v, he, h1, h2⟩
    rw [he]
    exact hasBadEscape_append_bad u b v h1 h2

theorem is_valid_false_iff (p : List Nat) :
    is_valid p = false ↔
      (END ∈ p ∨ p.getLast? = some ESC ∨
       ∃ u b v, p = u ++ ESC :: b :: v ∧ b ≠ ESC_END ∧ b ≠ ESC_ESC) := by
  have key : is_valid p = false ↔
      (END ∈ p ∨ p.getLast? = some ESC ∨ hasBadEscape p = true) := by
    rw [is_valid]
    cases hA : decide (END ∈ p) <;> cases hB : decide (p.getLast? = some ESC) <;>
      cases hC : hasBadEscape p <;>
        simp_all [decide_eq_false_iff_not, decide_eq_true_eq]
  rw [key, hasBadEscape_iff]

theorem decode_error_iff (p : List Nat) :
    decode p = Except.error p ↔ is_valid p = false := by
  rw [decode]
  split <;> simp_all

theorem getLast?_ne_esc_tail2 (a b : Nat) (rest : List Nat)
    (h : (a :: b :: rest).getLast? ≠ some ESC) : rest.getLast? ≠ some ESC := by
  cases rest with
  | nil => simp
  | cons c t =>
      rw [List.getLast?_cons_cons, List.getLast?_cons_cons] at h
      exact h

theorem decodeBody_eq_unescape :
    ∀ p : List Nat, hasBadEscape p = false → p.getLast? ≠ some ESC →
      replace2 ESC ESC_ESC [ESC] (replace2 ESC ESC_END [END] p) = unescape p
  | [], _, _ => by simp [replace2, unescape]
  | [a], _, _ => by simp [replace2, unescape]
  | a :: b :: rest, hbad, hlast => by
      by_cases ha : a = ESC
      · have hcond : ¬(a = ESC ∧ ¬(b = ESC_END ∨ b = ESC_ESC)) := by
          intro hc
          simp only [hasBadEscape, if_pos hc] at hbad
          exact Bool.noConfusion hbad
        have hb : b = ESC_END ∨ b = ESC_ESC := by
          by_contra hb
          exact hcond ⟨ha, hb⟩
        have hbad' : hasBadEscape (b :: rest) = false := by
          simp only [hasBadEscape, if_neg hcond] at hbad
          exact hbad
        have hrest : hasBadEscape rest = false := by
          rcases hb with hb | hb <;> rw [hb] at hbad' <;>
            rw [hasBadEscape_cons_of_ne _ _ (by decide)] at hbad' <;> exact hbad'
        have hlast' : rest.getLast? ≠ some ESC := getLast?_ne_esc_tail2 a b rest hlast
        subst ha
        rcases hb with hb | hb
        · subst hb
          have h1 : replace2 ESC ESC_END [END] (ESC :: ESC_END :: rest)
              = END :: replace2 ESC ESC_END [END] rest := by
            simp [replace2]
          have h2 : unescape (ESC :: ESC_END :: rest) = END :: unescape rest := by
            simp [unescape]
          rw [h1, h2, replace2_cons_of_ne _ _ _ _ _ (by decide)]
          rw [decodeBody_eq_unescape rest hrest hlast']
        · subst hb
          have h1 : replace2 ESC ESC_END [END] (ESC :: ESC_ESC :: rest)
              = ESC :: ESC_ESC :: replace2 ESC ESC_END [END] rest := by
            rw [show replace2 ESC ESC_END [END] (ESC :: ESC_ESC :: rest)
                = ESC :: replace2 ESC ESC_END [END] (ESC_ESC :: rest) from by
              simp [replace2, ESC, ESC_END, ESC_ESC]]
            rw [replace2_cons_of_ne _ _ _ _ _ (by decide)]
          have h2 : unescape (ESC :: ESC_ESC :: rest) = ESC :: unescape rest := by
            simp [unescape, ESC, ESC_END, ESC_ESC]
          have h3 : replace2 ESC ESC_ESC [ESC] (ESC :: ESC_ESC :: replace2 ESC ESC_END [END] rest)
              = ESC :: replace2 ESC ESC_ESC [ESC] (replace2 ESC ESC_END [END] rest) := by
            simp [replace2]
          rw [h1, h2, h3, decodeBody_eq_unescape rest hrest hlast']
      · have hcond : ¬(a = ESC ∧ ¬(b = ESC_END ∨ b = ESC_ESC)) := fun hc => ha hc.1
        have hbad' : hasBadEscape (b :: rest) = false := by
          simp only [hasBadEscape, if_neg hcond] at hbad
          exact hbad
        have hlast' : (b :: rest).getLast? ≠ some ESC := by
          rw [List.getLast?_cons_cons] at hlast
          exact hlast
        have h2 : unescape (a :: b :: rest) = a :: unescape (b :: rest) := by
          simp [unescape, ha]
        rw [replace2_cons_of_ne _ _ _ _ _ ha, replace2_cons_of_ne _ _ _ _ _ ha, h2]
        rw [decodeBody_eq_unescape (b :: rest) hbad' hlast']

/-- Claim C4: `decode p` fails with a ProtocolError carrying `p` itself exactly
when `p` contains an END byte, ends with an ESC byte, or has an ESC byte
followed by a byte other than ESC_END or ESC_ESC; when `p` is valid, `decode`
returns `p` with every ESC, ESC_END pair replaced by END and every
ESC, ESC_ESC pair replaced by ESC (the `unescape` transformation). -/
theorem decode_validity_characterization (p : List Nat) :
    (decode p = Except.error p ↔
      (END ∈ p ∨ p.getLast? = some ESC ∨
       ∃ u b v, p = u ++ ESC :: b :: v ∧ b ≠ ESC_END ∧ b ≠ ESC_ESC))
    ∧ (¬(END ∈ p ∨ p.getLast? = some ESC ∨
         ∃ u b v, p = u ++ ESC :: b :: v ∧ b ≠ ESC_END ∧ b ≠ ESC_ESC) →
       decode p = Except.ok (unescape p)) := by
  constructor
  · rw [decode_error_iff, is_valid_false_iff]
  · intro h
    rw [← is_valid_false_iff] at h
    have hv : is_valid p = true := by
      cases hb : is_valid p with
      | false => exact absurd hb h
      | true => rfl
    have hparts := hv
    simp only [is_valid, Bool.not_eq_true', Bool.or_eq_false_iff,
      decide_eq_false_iff_not] at hparts
    obtain ⟨⟨hmem, hlast⟩, hbad⟩ := hparts
    rw [decode, if_pos hv, decodeBody_eq_unescape p hbad hlast]

/-- Claim C4 witness: the characterization applied at the invalid packet
`[ESC, 0]` (bad escape sequence) and the valid packet `[ESC, ESC_END]`. -/
theorem decode_validity_characterization_witness :
    (decode [ESC, 0] = Except.error [ESC, 0])
    ∧ (decode [ESC, ESC_END] = Except.ok (unescape [ESC, ESC_END])) := by
  constructor
  · exact (decode_validity_characterization [ESC, 0]).1.mpr
      (Or.inr (Or.inr ⟨[], 0, [], rfl, by decide, by decide⟩))
  · refine (decode_validity_characterization [ESC, ESC_END]).2 ?_
    rintro (h | h | ⟨u, b, v, he, h1, h2⟩)
    · exact absurd h (by decide)
    · exact absurd h (by decide)
    · rcases u with _ | ⟨x, u⟩
      · simp only [List.nil_append, List.cons.injEq] at he
        exact h1 he.2.1.symm
      · rcases u with _ | ⟨y, u⟩
        · simp only [List.cons_append, List.nil_append, List.cons.injEq] at he
          exact absurd he.2.1 (by decide)
        · simp only [List.cons_append, List.cons.injEq] at he
          exact absurd he.2.2.symm (by simp)

theorem replace1_eq_self_of_not_mem (p : Nat) (rep m : List Nat) (h : p ∉ m) :
    replace1 p rep m = m := by
  induction m with
  | nil => simp [replace1]
  | cons b rest ih =>
      rw [List.mem_cons, not_or] at h
      have hb : b ≠ p := fun hb => h.1 hb.symm
      simp [replace1, hb, ih h.2]

theorem end_not_mem_replace1_esc (m : List Nat) (h : END ∉ m) :
    END ∉ replace1 ESC [ESC, ESC_ESC] m := by
  induction m with
  | nil => simp [replace1]
  | cons b rest ih =>
      rw [List.mem_cons, not_or] at h
      by_cases hb : b = ESC
      · subst hb
        simp only [replace1, if_pos rfl, List.mem_append]
        rintro (hm | hm)
        · rcases List.mem_cons.mp hm with h1 | h1
          · exact absurd h1 (by decide)
          · rcases List.mem_cons.mp h1 with h2 | h2
            · exact absurd h2 (by decide)
            · simp at h2
        · exact ih h.2 hm
      · simp only [replace1, if_neg hb, List.mem_append]
        rintro (hm | hm)
        · rcases List.mem_cons.mp hm with h1 | h1
          · exact h.1 h1
          · simp at h1
        · exact ih h.2 hm

theorem swappedEncode_eq_encode_of_no_end (m : List Nat) (h : END ∉ m) :
    swappedEncode m = encode m := by
  rw [swappedEncode, encode, replace1_eq_self_of_not_mem END _ m h,
    replace1_eq_self_of_not_mem END _ _ (end_not_mem_replace1_esc m h)]

/-- Claim C8 counterexample: for the one-byte message consisting of a single
END byte, applying the END substitution first and then the ESC substitution
(as sequential `bytes.replace` operations, the way `encode` applies them)
gives `[ESC, ESC_ESC, ESC_END]`, not the frame `[ESC, ESC_END]` produced by
the implemented order: the ESC substitution re-escapes the ESC byte that the
END substitution introduced, so the two orders are not interchangeable. -/
theorem encode_substitution_order_counterexample :
    swappedEncode [END] ≠ encode [END] := by decide

/-- Claim C8 (amended): the two substitutions of `encode` are independent in
the sense that `encode` equals the simultaneous per-byte substitution
(`escapeEach`, which replaces each original ESC byte by ESC, ESC_ESC and each
original END byte by ESC, ESC_END independently); and the two sequential
`bytes.replace` orders agree on every message that contains no END byte.  For
a message containing an END byte, the reversed sequential order differs (see
the counterexample), because the second replacement would re-escape the ESC
bytes introduced by the first. -/
theorem encode_substitutions_independent (m : List Nat) :
    encode m = escapeEach m ∧ (END ∉ m → swappedEncode m = encode m) :=
  ⟨encode_eq_escapeEach m, fun h => swappedEncode_eq_encode_of_no_end m h⟩

/-- Claim C8 witness: the amended claim applied at the message `[ESC]`,
which contains no END byte. -/
theorem encode_substitutions_independent_witness :
    END ∉ ([ESC] : List Nat) ∧ swappedEncode [ESC] = encode [ESC] :=
  ⟨by decide, (encode_substitutions_independent [ESC]).2 (by decide)⟩

/-- Models the mutable part of the `_Configuration` object: the process-wide
`USE_LEADING_END_BYTE` flag (its default value `_USE_LEADING_END_BYTE` is
`False`).  The lock only serializes access and has no observable effect in
this sequential model. -/
structure GlobalState where
  USE_LEADING_END_BYTE : Bool
deriving DecidableEq

/-- The configuration state at module load: `_USE_LEADING_END_BYTE = False`. -/
def initialGlobalState : GlobalState :=
  { USE_LEADING_END_BYTE := false }

/-- Models the `config.use_leading_end_byte(value)` context manager: the
current flag value is saved, the flag is set to `value`, the body runs in the
modified state, and the saved value is restored on exit.  The body is a state
transformer returning a result and the state at the end of the body. -/
def use_leading_end_byte {α : Type} (g : GlobalState) (value : Bool)
    (body : GlobalState → α × GlobalState) : α × GlobalState :=
  let saved := g.USE_LEADING_END_BYTE
  let r := body { g with USE_LEADING_END_BYTE := value }
  (r.1, { r.2 with USE_LEADING_END_BYTE := saved })

/-- Models the state of a `Driver` instance.  `_leading` models `self._prefix`
(the leading END byte captured at construction); `_packets` models the FIFO
`Queue` (front of the list is the oldest entry, `put` appends at the back). -/
structure Driver where
  _leading : List Nat
  _finished : Bool
  _recv_buffer : List Nat
  _packets : List (List Nat)
deriving DecidableEq

/-- Embeds `Driver.__init__` (slip.py line 342-346), reading the global
`config.USE_LEADING_END_BYTE` flag at construction time:
`self._prefix = END if config.USE_LEADING_END_BYTE else b""`. -/
def Driver.init (g : GlobalState) : Driver :=
  { _leading := if g.USE_LEADING_END_BYTE then [END] else []
    _finished := false
    _recv_buffer := []
    _packets := [] }

/-- Embeds `Driver.send` (slip.py line 348-360):
`return self._prefix + encode(message) + END`. -/
def Driver.send (d : Driver) (message : List Nat) : List Nat :=
  d._leading ++ encode message ++ [END]

/-- Models `re.split(END + b"+", s)`: the pattern greedily matches maximal
runs of one or more END bytes, and `re.split` returns the (possibly empty)
pieces before, between and after the matches.  A run of several consecutive
END bytes therefore acts as a single separator: when the head is an END byte
immediately followed by another END byte, the two belong to the same run. -/
def splitOnEndRuns : List Nat → List (List Nat)
  | [] => [[]]
  | b :: rest =>
      if b = END then
        if rest.head? = some END then splitOnEndRuns rest
        else [] :: splitOnEndRuns rest
      else
        match splitOnEndRuns rest with
        | [] => [[b]]
        | p :: ps => (b :: p) :: ps

/-- Embeds `Driver.receive` (slip.py line 362-419): empty `data` marks the end
of the stream and is replaced by a single END byte; the data is appended to
`self._recv_buffer`; leading END bytes are stripped (`lstrip(END)`); the
buffer is split on runs of END bytes (`re.split(END + b"+", ...)`); the last
piece becomes the new buffer and all other pieces are appended to the packet
queue.  (The bytes-like normalization of single-integer input is outside the
model; `data` is always a byte sequence here.) -/
def Driver.receive (d : Driver) (data : List Nat) : Driver :=
  let effective := if data = [] then [END] else data
  let buffer := (d._recv_buffer ++ effective).dropWhile (fun b => b == END)
  let pieces := splitOnEndRuns buffer
  { d with
    _finished := if data = [] then true else d._finished
    _recv_buffer := pieces.getLastD []
    _packets := d._packets ++ pieces.dropLast }

/-- The observable outcome of one `Driver.get` call: `notAvailable` models the
`None` return value (queue empty, stream not finished — in the real code the
non-blocking or timed-out path), `msg m` models returning the decoded message
`m` (with `msg []` the end-of-stream marker `b""`), and `protocolError p`
models a raised `ProtocolError` carrying the undecodable packet `p`. -/
inductive GetResult where
  | notAvailable
  | msg (m : List Nat)
  | protocolError (p : List Nat)
deriving DecidableEq

/-- Embeds `Driver.get` (slip.py line 421-454): remove the oldest packet from
the queue and decode it; if the queue is empty, return `b""` when the stream
is finished and `None` otherwise.  `block`/`timeout` only govern how long the
real code waits for the queue to fill; in this sequential model the queue
cannot change during the call, so the empty-queue outcome is immediate. -/
def Driver.get (d : Driver) : GetResult × Driver :=
  match d._packets with
  | [] => (if d._finished then GetResult.msg [] else GetResult.notAvailable, d)
  | p :: rest =>
      match decode p with
      | Except.ok m => (GetResult.msg m, { d with _packets := rest })
      | Except.error q => (GetResult.protocolError q, { d with _packets := rest })

/-- Specification-side byte-at-a-time state machine for the receive side:
the state is the pending partial frame and the list of completed frames.  An
END byte on an empty partial frame is a redundant delimiter and is ignored;
an END byte on a non-empty partial frame completes that frame; any other byte
extends the partial frame. -/
def stepByte (st : List Nat × List (List Nat)) (b : Nat) : List Nat × List (List Nat) :=
  if b = END then
    if st.1 = [] then st else ([], st.2 ++ [st.1])
  else (st.1 ++ [b], st.2)

/-- Feed a list of chunks to a driver, one `receive` call per chunk. -/
def receiveAll (d : Driver) (chunks : List (List Nat)) : Driver :=
  chunks.foldl Driver.receive d

/-- The internal invariant of a `Driver`: the receive buffer contains no END
byte, and every queued packet is non-empty and contains no END byte. -/
def DriverInv (d : Driver) : Prop :=
  END ∉ d._recv_buffer ∧ ∀ p ∈ d._packets, p ≠ [] ∧ END ∉ p

theorem splitOnEndRuns_ne_nil (s : List Nat) : splitOnEndRuns s ≠ [] := by
  induction s with
  | nil => simp [splitOnEndRuns]
  | cons b rest ih =>
      simp only [splitOnEndRuns]
      split
      · split
        · exact ih
        · simp
      · split
        · simp
        · simp

theorem splitOnEndRuns_end_cons (t : List Nat) :
    splitOnEndRuns (END :: t)
      = [] :: splitOnEndRuns (t.dropWhile (fun b => b == END)) := by
  induction t with
  | nil => simp [splitOnEndRuns]
  | cons c t' ih =>
      by_cases hc : c = END
      · subst hc
        rw [show splitOnEndRuns (END :: END :: t') = splitOnEndRuns (END :: t') from by
          simp [splitOnEndRuns]]
        rw [ih]
        simp
      · rw [show splitOnEndRuns (END :: c :: t') = [] :: splitOnEndRuns (c :: t') from by
          simp [splitOnEndRuns, hc]]
        simp [hc]

theorem splitOnEndRuns_of_not_mem (t : List Nat) (h : END ∉ t) :
    splitOnEndRuns t = [t] := by
  induction t with
  | nil => simp [splitOnEndRuns]
  | cons b rest ih =>
      rw [List.mem_cons, not_or] at h
      have hb : b ≠ END := fun hb => h.1 hb.symm
      simp only [splitOnEndRuns, if_neg hb]
      rw [ih h.2]

theorem splitOnEndRuns_cons_ne (x : Nat) (xs : List Nat) (hx : x ≠ END) :
    splitOnEndRuns (x :: xs)
      = match splitOnEndRuns xs with
        | [] => [[x]]
        | p :: ps => (x :: p) :: ps := by
  simp only [splitOnEndRuns, if_neg hx]

theorem splitOnEndRuns_append_end (buf t : List Nat) (hmem : END ∉ buf) (hne : buf ≠ []) :
    splitOnEndRuns (buf ++ END :: t)
      = buf :: splitOnEndRuns (t.dropWhile (fun b => b == END)) := by
  induction buf with
  | nil => exact absurd rfl hne
  | cons c buf' ih =>
      rw [List.mem_cons, not_or] at hmem
      have hc : c ≠ END := fun h => hmem.1 h.symm
      cases buf' with
      | nil =>
          simp only [List.cons_append, List.nil_append]
          rw [splitOnEndRuns_cons_ne c (END :: t) hc, splitOnEndRuns_end_cons t]
      | cons d bt =>
          rw [List.cons_append, splitOnEndRuns_cons_ne c ((d :: bt) ++ END :: t) hc,
            ih hmem.2 (by simp)]

theorem foldl_stepByte_queue (s : List Nat) :
    ∀ (buf : List Nat) (q : List (List Nat)),
      List.foldl stepByte (buf, q) s
        = ((List.foldl stepByte (buf, []) s).1,
           q ++ (List.foldl stepByte (buf, []) s).2) := by
  induction s with
  | nil =>
      intro buf q
      simp
  | cons b s' ih =>
      intro buf q
      rw [List.foldl_cons, List.foldl_cons]
      by_cases hb : b = END
      · subst hb
        by_cases hbuf : buf = []
        · subst hbuf
          have e1 : stepByte (([] : List Nat), q) END = ([], q) := by simp [stepByte]
          have e2 : stepByte (([] : List Nat), ([] : List (List Nat))) END = ([], []) := by
            simp [stepByte]
          rw [e1, e2]
          exact ih [] q
        · have e1 : stepByte (buf, q) END = ([], q ++ [buf]) := by simp [stepByte, hbuf]
          have e2 : stepByte (buf, ([] : List (List Nat))) END = ([], [buf]) := by
            simp [stepByte, hbuf]
          rw [e1, e2, ih [] (q ++ [buf]), ih [] [buf]]
          simp
      · have e1 : stepByte (buf, q) b = (buf ++ [b], q) := by simp [stepByte, hb]
        have e2 : stepByte (buf, ([] : List (List Nat))) b = (buf ++ [b], []) := by
          simp [stepByte, hb]
        rw [e1, e2]
        exact ih (buf ++ [b]) q

theorem getLastD_cons_ne {α : Type} (a x : α) (l : List α) (h : l ≠ []) :
    (a :: l).getLastD x = l.getLastD x := by
  cases l with
  | nil => exact absurd rfl h
  | cons b t => simp [List.getLastD_cons]

theorem dropLast_cons_ne {α : Type} (a : α) (l : List α) (h : l ≠ []) :
    (a :: l).dropLast = a :: l.dropLast := by
  cases l with
  | nil => exact absurd rfl h
  | cons b t => simp [List.dropLast_cons₂]

theorem foldl_stepByte_eq_split (s : List Nat) :
    ∀ buf : List Nat, END ∉ buf →
      List.foldl stepByte (buf, []) s
        = ((splitOnEndRuns ((buf ++ s).dropWhile (fun b => b == END))).getLastD [],
           (splitOnEndRuns ((buf ++ s).dropWhile (fun b => b == END))).dropLast) := by
  induction s with
  | nil =>
      intro buf hbuf
      cases buf with
      | nil => simp [splitOnEndRuns]
      | cons c bt =>
          have hc : c ≠ END := by
            intro h
            exact hbuf (by rw [h]; exact List.mem_cons_self _ _)
          have hd : (c :: bt).dropWhile (fun b => b == END) = c :: bt := by
            simp [List.dropWhile_cons, hc]
          rw [List.append_nil, hd, splitOnEndRuns_of_not_mem _ hbuf]
          simp
  | cons b s' ih =>
      intro buf hbuf
      rw [List.foldl_cons]
      by_cases hb : b = END
      · subst hb
        by_cases hbuf0 : buf = []
        · subst hbuf0
          have e : stepByte (([] : List Nat), []) END = ([], []) := by simp [stepByte]
          rw [e, ih [] (by simp)]
          simp only [List.nil_append]
          rw [show (END :: s').dropWhile (fun b => b == END)
              = s'.dropWhile (fun b => b == END) from by simp]
        · have e : stepByte (buf, []) END = ([], [buf]) := by simp [stepByte, hbuf0]
          rw [e, foldl_stepByte_queue s' [] [buf], ih [] (by simp)]
          simp only [List.nil_append]
          have hdw : (buf ++ END :: s').dropWhile (fun b => b == END) = buf ++ END :: s' := by
            cases buf with
            | nil => exact absurd rfl hbuf0
            | cons c bt =>
                have hc : c ≠ END := by
                  intro h
                  exact hbuf (by rw [h]; exact List.mem_cons_self _ _)
                rw [List.cons_append]
                simp [List.dropWhile_cons, hc]
          rw [hdw, splitOnEndRuns_append_end buf s' hbuf hbuf0]
          have hP : splitOnEndRuns (s'.dropWhile (fun b => b == END)) ≠ [] :=
            splitOnEndRuns_ne_nil _
          rw [getLastD_cons_ne _ _ _ hP, dropLast_cons_ne _ _ hP]
          simp
      · have e : stepByte (buf, []) b = (buf ++ [b], []) := by simp [stepByte, hb]
        have hmem2 : END ∉ buf ++ [b] := by
          intro h
          rcases List.mem_append.mp h with h1 | h1
          · exact hbuf h1
          · rcases List.mem_cons.mp h1 with h2 | h2
            · exact hb h2.symm
            · simp at h2
        rw [e, ih (buf ++ [b]) hmem2, List.append_assoc, List.singleton_append]

theorem receive_eq_fold (d : Driver) (data : List Nat) :
    d.receive data =
      { d with
        _finished := if data = [] then true else d._finished
        _recv_buffer :=
          (List.foldl stepByte ([], [])
            (d._recv_buffer ++ (if data = [] then [END] else data))).1
        _packets :=
          d._packets ++
            (List.foldl stepByte ([], [])
              (d._recv_buffer ++ (if data = [] then [END] else data))).2 } := by
  have h := foldl_stepByte_eq_split
    (d._recv_buffer ++ (if data = [] then [END] else data)) [] (by simp)
  rw [List.nil_append] at h
  simp only [Driver.receive]
  rw [h]

theorem foldl_stepByte_buffer_end_free (s : List Nat) :
    ∀ (buf : List Nat) (q : List (List Nat)), END ∉ buf →
      END ∉ (List.foldl stepByte (buf, q) s).1 := by
  induction s with
  | nil =>
      intro buf q h
      simpa using h
  | cons b s' ih =>
      intro buf q h
      rw [List.foldl_cons]
      by_cases hb : b = END
      · subst hb
        by_cases hbuf : buf = []
        · subst hbuf
          rw [show stepByte (([] : List Nat), q) END = ([], q) from by simp [stepByte]]
          exact ih [] q (by simp)
        · rw [show stepByte (buf, q) END = ([], q ++ [buf]) from by simp [stepByte, hbuf]]
          exact ih [] _ (by simp)
      · rw [show stepByte (buf, q) b = (buf ++ [b], q) from by simp [stepByte, hb]]
        refine ih _ q ?_
        intro hm
        rcases List.mem_append.mp hm with h1 | h1
        · exact h h1
        · rcases List.mem_cons.mp h1 with h2 | h2
          · exact hb h2.symm
          · simp at h2

theorem foldl_stepByte_packets_good (s : List Nat) :
    ∀ buf : List Nat, END ∉ buf →
      ∀ p ∈ (List.foldl stepByte (buf, []) s).2, p ≠ [] ∧ END ∉ p := by
  induction s with
  | nil =>
      intro buf h p hp
      simp at hp
  | cons b s' ih =>
      intro buf h p hp
      rw [List.foldl_cons] at hp
      by_cases hb : b = END
      · subst hb
        by_cases hbuf : buf = []
        · subst hbuf
          rw [show stepByte (([] : List Nat), ([] : List (List Nat))) END = ([], []) from by
            simp [stepByte]] at hp
          exact ih [] (by simp) p hp
        · rw [show stepByte (buf, ([] : List (List Nat))) END = ([], [buf]) from by
            simp [stepByte, hbuf]] at hp
          rw [foldl_stepByte_queue s' [] [buf]] at hp
          rcases List.mem_append.mp hp with h1 | h1
          · rcases List.mem_cons.mp h1 with h2 | h2
            · subst h2
              exact ⟨hbuf, h⟩
            · simp at h2
          · exact ih [] (by simp) p h1
      · rw [show stepByte (buf, ([] : List (List Nat))) b = (buf ++ [b], []) from by
          simp [stepByte, hb]] at hp
        refine ih (buf ++ [b]) ?_ p hp
        intro hm
        rcases List.mem_append.mp hm with h1 | h1
        · exact h h1
        · rcases List.mem_cons.mp h1 with h2 | h2
          · exact hb h2.symm
          · simp at h2

theorem foldl_stepByte_of_not_mem (t : List Nat) :
    ∀ (buf : List Nat) (q : List (List Nat)), END ∉ t →
      List.foldl stepByte (buf, q) t = (buf ++ t, q) := by
  induction t with
  | nil =>
      intro buf q h
      simp
  | cons b t' ih =>
      intro buf q h
      rw [List.mem_cons, not_or] at h
      have hb : b ≠ END := fun hb => h.1 hb.symm
      rw [List.foldl_cons,
        show stepByte (buf, q) b = (buf ++ [b], q) from by simp [stepByte, hb],
        ih (buf ++ [b]) q h.2, List.append_assoc, List.singleton_append]

theorem foldl_stepByte_replicate_end (k : Nat) :
    ∀ st : List Nat × List (List Nat), 1 ≤ k →
      List.foldl stepByte st (List.replicate k END) = stepByte st END := by
  induction k with
  | zero =>
      intro st h
      exact absurd h (by omega)
  | succ n ih =>
      intro st _
      rw [List.replicate_succ, List.foldl_cons]
      cases n with
      | zero => simp
      | succ m =>
          rw [ih (stepByte st END) (by omega)]
          rcases st with ⟨buf, q⟩
          by_cases hbuf : buf = [] <;> simp [stepByte, hbuf]

theorem receive_receive (d : Driver) (a b : List Nat) (ha : a ≠ []) (hb : b ≠ []) :
    (d.receive a).receive b = d.receive (a ++ b) := by
  have hab : a ++ b ≠ [] := by
    intro h
    rcases List.append_eq_nil.mp h with ⟨h1, _⟩
    exact ha h1
  rw [receive_eq_fold d a, receive_eq_fold _ b, receive_eq_fold d (a ++ b)]
  simp only [if_neg ha, if_neg hb, if_neg hab]
  have hend : END ∉ (List.foldl stepByte ([], []) (d._recv_buffer ++ a)).1 :=
    foldl_stepByte_buffer_end_free _ [] [] (by simp)
  have key : List.foldl stepByte ([], []) (d._recv_buffer ++ (a ++ b))
      = ((List.foldl stepByte ([], [])
            ((List.foldl stepByte ([], []) (d._recv_buffer ++ a)).1 ++ b)).1,
         (List.foldl stepByte ([], []) (d._recv_buffer ++ a)).2 ++
           (List.foldl stepByte ([], [])
             ((List.foldl stepByte ([], []) (d._recv_buffer ++ a)).1 ++ b)).2) := by
    have h2 : List.foldl stepByte ([], [])
        ((List.foldl stepByte ([], []) (d._recv_buffer ++ a)).1 ++ b)
        = List.foldl stepByte
            ((List.foldl stepByte ([], []) (d._recv_buffer ++ a)).1, []) b := by
      rw [List.foldl_append, foldl_stepByte_of_not_mem _ [] [] hend, List.nil_append]
    have h3 : List.foldl stepByte (List.foldl stepByte ([], []) (d._recv_buffer ++ a)) b
        = ((List.foldl stepByte
              ((List.foldl stepByte ([], []) (d._recv_buffer ++ a)).1, []) b).1,
           (List.foldl stepByte ([], []) (d._recv_buffer ++ a)).2 ++
             (List.foldl stepByte
               ((List.foldl stepByte ([], []) (d._recv_buffer ++ a)).1, []) b).2) :=
      foldl_stepByte_queue b _ _
    rw [← List.append_assoc, List.foldl_append, h3, h2]
  rw [key]
  simp

theorem receiveAll_singletons (frame : List Nat) :
    ∀ d : Driver, frame ≠ [] →
      receiveAll d (frame.map (fun b => [b])) = d.receive frame := by
  induction frame with
  | nil =>
      intro d h
      exact absurd rfl h
  | cons b rest ih =>
      intro d _
      cases rest with
      | nil => rfl
      | cons c t =>
          have h1 : receiveAll d ((b :: c :: t).map fun x => [x])
              = receiveAll (d.receive [b]) ((c :: t).map fun x => [x]) := rfl
          rw [h1, ih (d.receive [b]) (by simp)]
          exact receive_receive d [b] (c :: t) (by simp) (by simp)

theorem receive_replicate_end (d : Driver) (x y : List Nat) (k : Nat) (hk : 1 ≤ k) :
    d.receive (x ++ List.replicate k END ++ y) = d.receive (x ++ END :: y) := by
  have hne1 : x ++ List.replicate k END ++ y ≠ [] := by
    intro h
    rcases List.append_eq_nil.mp h with ⟨h1, _⟩
    rcases List.append_eq_nil.mp h1 with ⟨_, h2⟩
    cases k with
    | zero => omega
    | succ n => simp [List.replicate_succ] at h2
  have hne2 : x ++ END :: y ≠ [] := by
    intro h
    rcases List.append_eq_nil.mp h with ⟨_, h2⟩
    simp at h2
  rw [receive_eq_fold d _, receive_eq_fold d _]
  simp only [if_neg hne1, if_neg hne2]
  have hfold : List.foldl stepByte ([], [])
      (d._recv_buffer ++ (x ++ List.replicate k END ++ y))
      = List.foldl stepByte ([], []) (d._recv_buffer ++ (x ++ END :: y)) := by
    simp only [← List.append_assoc, List.foldl_append, List.foldl_cons]
    rw [foldl_stepByte_replicate_end k _ hk]
  rw [hfold]

/-- Claim C2: for every Driver state and every non-empty input, `receive`
never raises (it is a total function) and performs exactly: append the data to
the receive buffer, strip all leading END bytes, split the remainder on
maximal runs of END bytes, append every resulting piece except the last, in
order, to the pending-frame queue, and keep the last (possibly empty) piece as
the new receive buffer (first conjunct, with `splitOnEndRuns` modelling
`re.split(END + b"+", ...)`); equivalently, the buffer and the enqueued frames
are those produced by the byte-at-a-time frame-splitting machine `stepByte`
(second conjunct); consequently a run of 1..N consecutive END bytes yields
exactly the same Driver state as a single END byte (third conjunct). -/
theorem receive_splits_on_end_runs :
    (∀ (d : Driver) (data : List Nat), data ≠ [] →
      d.receive data =
        { d with
          _recv_buffer :=
            (splitOnEndRuns
              ((d._recv_buffer ++ data).dropWhile (fun b => b == END))).getLastD []
          _packets :=
            d._packets ++
              (splitOnEndRuns
                ((d._recv_buffer ++ data).dropWhile (fun b => b == END))).dropLast })
    ∧ (∀ (d : Driver) (data : List Nat), data ≠ [] →
      d.receive data =
        { d with
          _recv_buffer := (List.foldl stepByte ([], []) (d._recv_buffer ++ data)).1
          _packets :=
            d._packets ++ (List.foldl stepByte ([], []) (d._recv_buffer ++ data)).2 })
    ∧ (∀ (d : Driver) (x y : List Nat) (k : Nat), 1 ≤ k →
      d.receive (x ++ List.replicate k END ++ y) = d.receive (x ++ END :: y)) := by
  refine ⟨?_, ?_, ?_⟩
  · intro d data h
    simp only [Driver.receive, if_neg h]
  · intro d data h
    rw [receive_eq_fold d data]
    simp only [if_neg h]
  · intro d x y k hk
    exact receive_replicate_end d x y k hk

/-- Claim C2 witness: delimiter tolerance applied at a concrete driver with a
run of three END bytes between the frames `[5]` and `[7]`. -/
theorem receive_splits_on_end_runs_witness :
    (1 : Nat) ≤ 3 ∧
      (Driver.mk [] false [] []).receive ([5] ++ List.replicate 3 END ++ [7])
        = (Driver.mk [] false [] []).receive ([5] ++ END :: [7]) :=
  ⟨by decide,
   receive_splits_on_end_runs.2.2 (Driver.mk [] false [] []) [5] [7] 3 (by decide)⟩

/-- Claim C5: `receive b""` marks end-of-stream and otherwise behaves exactly
as receiving a single END byte (so a pending partial frame becomes a complete
queued frame, retrievable — decoded or rejected — by `get`); and once the
end-of-stream flag is set, every `get` call that finds the queue empty returns
the empty byte string (the end-of-stream marker) instead of the
not-yet-available sentinel. -/
theorem receive_empty_marks_end_of_stream :
    (∀ d : Driver, d.receive [] = { d.receive [END] with _finished := true })
    ∧ (∀ d : Driver, d._finished = true → d._packets = [] →
        d.get = (GetResult.msg [], d)) := by
  constructor
  · intro d
    simp [Driver.receive]
  · intro d h1 h2
    simp [Driver.get, h1, h2]

/-- Claim C5 witness: a finished driver with an empty queue, and the
end-of-stream marker returned by `get`. -/
theorem receive_empty_marks_end_of_stream_witness :
    (Driver.mk [] true [] [])._finished = true
    ∧ (Driver.mk [] true [] [])._packets = []
    ∧ (Driver.mk [] true [] []).get = (GetResult.msg [], Driver.mk [] true [] []) :=
  ⟨rfl, rfl, receive_empty_marks_end_of_stream.2 (Driver.mk [] true [] []) rfl rfl⟩

/-- Claim C6: `send` returns the encoded message with a trailing END byte
always appended and a leading END byte prepended exactly when the global
`USE_LEADING_END_BYTE` flag was true at the moment the Driver was constructed.
A Driver constructed inside a `use_leading_end_byte true` scope sends
`b"\xc0x\xc0"` for `b"x"` (byte 120), one constructed under the default
configuration sends `b"x\xc0"`, and a Driver constructed inside a scope keeps
its captured prefix for every later `send` even though the scope restores the
global flag on exit (last two conjuncts: the scope-constructed driver's output
depends only on the scoped value `v`, and the global state after the scope is
restored to its original value). -/
theorem send_uses_construction_time_config :
    (∀ (g : GlobalState) (m : List Nat),
      (Driver.init g).send m
        = (if g.USE_LEADING_END_BYTE then [END] else []) ++ encode m ++ [END])
    ∧ ((use_leading_end_byte initialGlobalState true
          (fun g => (Driver.init g, g))).1.send [120] = [0xC0, 120, 0xC0])
    ∧ ((Driver.init initialGlobalState).send [120] = [120, 0xC0])
    ∧ (∀ (g : GlobalState) (v : Bool) (m : List Nat),
        ((use_leading_end_byte g v (fun gg => (Driver.init gg, gg))).1).send m
          = (if v then [END] else []) ++ encode m ++ [END])
    ∧ (∀ (g : GlobalState) (v : Bool),
        (use_leading_end_byte g v (fun gg => (Driver.init gg, gg))).2 = g) :=
  ⟨fun _ _ => rfl, by decide, by decide, fun _ _ _ => rfl, fun _ _ => rfl⟩

/-- Claim C3: when the pending-frame queue holds, in order, a valid frame
`f1`, an invalid frame `g`, and a valid frame `f2`, three successive `get`
calls yield the decoded `f1`, then the ProtocolError carrying `g` (with `g`
removed from the queue despite the error), then the decoded `f2`; no valid
frame is lost, no frame is reordered, and the error for `g` is raised exactly
once. -/
theorem get_isolates_invalid_frame (d : Driver) (f1 g f2 : List Nat)
    (rest : List (List Nat)) (hq : d._packets = f1 :: g :: f2 :: rest)
    (h1 : is_valid f1 = true) (hg : is_valid g = false) (h2 : is_valid f2 = true) :
    d.get = (GetResult.msg (replace2 ESC ESC_ESC [ESC] (replace2 ESC ESC_END [END] f1)),
             { d with _packets := g :: f2 :: rest })
    ∧ ({ d with _packets := g :: f2 :: rest } : Driver).get
        = (GetResult.protocolError g, { d with _packets := f2 :: rest })
    ∧ ({ d with _packets := f2 :: rest } : Driver).get
        = (GetResult.msg (replace2 ESC ESC_ESC [ESC] (replace2 ESC ESC_END [END] f2)),
           { d with _packets := rest }) := by
  refine ⟨?_, ?_, ?_⟩
  · simp [Driver.get, hq, decode, h1]
  · simp [Driver.get, decode, hg]
  · simp [Driver.get, decode, h2]

/-- Claim C3 witness: a driver whose queue holds the valid frame `[104]`, the
invalid frame `[ESC, 0]`, and the valid frame `[105]`. -/
theorem get_isolates_invalid_frame_witness :
    is_valid [104] = true ∧
      ((Driver.mk [] false [] [[104], [ESC, 0], [105]]).get
          = (GetResult.msg (replace2 ESC ESC_ESC [ESC] (replace2 ESC ESC_END [END] [104])),
             Driver.mk [] false [] [[ESC, 0], [105]])
        ∧ (Driver.mk [] false [] [[ESC, 0], [105]]).get
            = (GetResult.protocolError [ESC, 0], Driver.mk [] false [] [[105]])
        ∧ (Driver.mk [] false [] [[105]]).get
            = (GetResult.msg (replace2 ESC ESC_ESC [ESC] (replace2 ESC ESC_END [END] [105])),
               Driver.mk [] false [] [])) :=
  ⟨by decide,
   get_isolates_invalid_frame (Driver.mk [] false [] [[104], [ESC, 0], [105]])
     [104] [ESC, 0] [105] [] rfl (by decide) (by decide) (by decide)⟩

/-- Claim C10: the invariant "the receive buffer contains no END byte and
every queued frame is non-empty and contains no END byte" holds at
construction and is preserved by `receive` (with any data, empty included) and
by `get`; `send` does not touch the driver state at all (in the embedding it
is a pure function of the state, so there is nothing to preserve). -/
theorem driver_invariant_preserved :
    (∀ g : GlobalState, DriverInv (Driver.init g))
    ∧ (∀ (d : Driver) (data : List Nat), DriverInv d → DriverInv (d.receive data))
    ∧ (∀ d : Driver, DriverInv d → DriverInv (d.get).2) := by
  refine ⟨?_, ?_, ?_⟩
  · intro g
    exact ⟨by simp [Driver.init], by simp [Driver.init]⟩
  · intro d data hInv
    rw [receive_eq_fold d data]
    constructor
    · exact foldl_stepByte_buffer_end_free _ [] [] (by simp)
    · intro p hp
      rcases List.mem_append.mp hp with h1 | h1
      · exact hInv.2 p h1
      · exact foldl_stepByte_packets_good _ [] (by simp) p h1
  · intro d hInv
    rcases hq : d._packets with _ | ⟨p, rest⟩
    · have h2 : (d.get).2 = d := by simp [Driver.get, hq]
      rw [h2]
      exact hInv
    · have h2 : (d.get).2 = { d with _packets := rest } := by
        rcases hdec : decode p with q | m <;> simp [Driver.get, hq, hdec]
      rw [h2]
      constructor
      · exact hInv.1
      · intro x hx
        exact hInv.2 x (by rw [hq]; exact List.mem_cons_of_mem _ hx)

/-- Claim C10 witness: the invariant holds for a concrete driver and is
preserved by a concrete `receive` call. -/
theorem driver_invariant_preserved_witness :
    DriverInv (Driver.mk [] false [1] [[2]]) ∧
      DriverInv ((Driver.mk [] false [1] [[2]]).receive [3, END]) :=
  ⟨by unfold DriverInv; decide,
   driver_invariant_preserved.2.1 (Driver.mk [] false [1] [[2]]) [3, END]
     (by unfold DriverInv; decide)⟩

theorem replace2_eq_nil (p q : Nat) (rep t : List Nat) (hrep : rep ≠ [])
    (h : replace2 p q rep t = []) : t = [] := by
  cases t with
  | nil => rfl
  | cons a t' =>
      cases t' with
      | nil => simp [replace2] at h
      | cons b r =>
          by_cases hc : a = p ∧ b = q
          · simp [replace2, hc] at h
            exact absurd h.1 hrep
          · simp [replace2, hc] at h

theorem decode_ok_nil (p m : List Nat) (hdec : decode p = Except.ok m) (hm : m = []) :
    p = [] := by
  rw [decode] at hdec
  split at hdec
  · simp only [Except.ok.injEq] at hdec
    subst hm
    have h1 : replace2 ESC ESC_END [END] p = [] :=
      replace2_eq_nil ESC ESC_ESC [ESC] _ (by simp) hdec
    exact replace2_eq_nil ESC ESC_END [END] p (by simp) h1
  · simp at hdec

/-- Claim C9: an empty message sent through a Driver is never delivered by a
receiving Driver: `send b""` produces only END delimiter bytes; feeding that
output to a Driver whose receive buffer is empty enqueues no frame and leaves
the buffer empty; under the Driver invariant, `get` returns the empty byte
string only via the end-of-stream path (empty queue and finished flag set);
and every message decoded from a queued frame is non-empty — so `b""` is an
unambiguous end-of-stream marker for callers of `get`. -/
theorem empty_message_not_delivered :
    (∀ g : GlobalState, ∀ b ∈ (Driver.init g).send [], b = END)
    ∧ (∀ (g : GlobalState) (d : Driver), d._recv_buffer = [] →
        (d.receive ((Driver.init g).send []))._packets = d._packets
        ∧ (d.receive ((Driver.init g).send []))._recv_buffer = [])
    ∧ (∀ d : Driver, DriverInv d → ∀ (r : GetResult) (d' : Driver),
        d.get = (r, d') → r = GetResult.msg [] →
        d._packets = [] ∧ d._finished = true)
    ∧ (∀ (d : Driver) (p : List Nat) (ps : List (List Nat)), DriverInv d →
        d._packets = p :: ps → ∀ m, decode p = Except.ok m → m ≠ []) := by
  refine ⟨?_, ?_, ?_, ?_⟩
  · intro g b hb
    rcases g with ⟨u⟩
    cases u <;> simp [Driver.send, Driver.init, encode, replace1] at hb <;> exact hb
  · intro g d hbuf
    have hsend : (Driver.init g).send []
        = (if g.USE_LEADING_END_BYTE then [END] else []) ++ [END] := by
      simp [Driver.send, Driver.init, encode, replace1]
    rcases g with ⟨u⟩
    cases u <;>
      · rw [receive_eq_fold]
        simp [hsend, hbuf, stepByte]
  · intro d hInv r d' hget hr
    rcases hq : d._packets with _ | ⟨p, ps⟩
    · cases hfin : d._finished
      · simp [Driver.get, hq, hfin] at hget
        rw [hr] at hget
        simp at hget
      · exact ⟨rfl, rfl⟩
    · have hp := hInv.2 p (by rw [hq]; exact List.mem_cons_self _ _)
      rcases hdec : decode p with q | m
      · simp [Driver.get, hq, hdec] at hget
        rw [hr] at hget
        simp at hget
      · simp [Driver.get, hq, hdec] at hget
        rw [hr] at hget
        have hm : m = [] := by
          have := hget.1
          simp at this
          exact this
        exact absurd (decode_ok_nil p m hdec hm) hp.1
  · intro d p ps hInv hq m hdec
    intro hm
    have hp := hInv.2 p (by rw [hq]; exact List.mem_cons_self _ _)
    exact absurd (decode_ok_nil p m hdec hm) hp.1

/-- Claim C9 witness: the only way `get` yields the empty message is the
end-of-stream path, applied at a finished driver with an empty queue. -/
theorem empty_message_not_delivered_witness :
    DriverInv (Driver.mk [] true [] []) ∧
      ((Driver.mk [] true [] [])._packets = []
        ∧ (Driver.mk [] true [] [])._finished = true) :=
  ⟨by unfold DriverInv; decide,
   empty_message_not_delivered.2.2.1 (Driver.mk [] true [] [])
     (by unfold DriverInv; decide) (GetResult.msg []) (Driver.mk [] true [] []) rfl rfl⟩

theorem escapeEach_ne_nil (b : Nat) (r : List Nat) : escapeEach (b :: r) ≠ [] := by
  simp only [escapeEach]
  split_ifs <;> simp

theorem encode_ne_nil (m : List Nat) (hm : m ≠ []) : encode m ≠ [] := by
  rw [encode_eq_escapeEach]
  cases m with
  | nil => exact absurd rfl hm
  | cons b r => exact escapeEach_ne_nil b r

/-- Claim C7: feeding the END-terminated frame of any message to `receive` one
byte at a time leaves the Driver in exactly the same state as feeding the
whole frame in a single call (first conjunct, from any starting state, so
`get` behaves identically afterwards); starting from a fresh Driver,
`get` returns the not-yet-available sentinel after every proper prefix of the
frame (second conjunct) and, for a non-empty message, yields exactly the
decoded message once the terminating END byte has arrived (third conjunct). -/
theorem fragmentation_invariance :
    (∀ (d : Driver) (m : List Nat),
      receiveAll d ((encode m ++ [END]).map (fun b => [b]))
        = d.receive (encode m ++ [END]))
    ∧ (∀ (g : GlobalState) (m : List Nat) (i : Nat), i < (encode m ++ [END]).length →
        ((receiveAll (Driver.init g)
            (((encode m ++ [END]).take i).map (fun b => [b]))).get).1
          = GetResult.notAvailable)
    ∧ (∀ (g : GlobalState) (m : List Nat), m ≠ [] →
        ((Driver.init g).receive (encode m ++ [END])).get
          = (GetResult.msg m, Driver.init g)) := by
  refine ⟨?_, ?_, ?_⟩
  · intro d m
    exact receiveAll_singletons (encode m ++ [END]) d (by simp)
  · intro g m i hi
    have hlen : i ≤ (encode m).length := by
      simp only [List.length_append, List.length_cons, List.length_nil] at hi
      omega
    have htake : (encode m ++ [END]).take i = (encode m).take i :=
      List.take_append_of_le_length hlen
    have hnomem : END ∉ (encode m).take i := by
      intro h
      rw [encode_eq_escapeEach] at h
      exact end_not_mem_escapeEach m (List.mem_of_mem_take h)
    rw [htake]
    rcases hT : (encode m).take i with _ | ⟨c, t⟩
    · simp [receiveAll, Driver.get, Driver.init]
    · rw [hT] at hnomem
      rw [receiveAll_singletons _ _ (by simp)]
      have hstate : (Driver.init g).receive (c :: t)
          = Driver.mk (Driver.init g)._leading false (c :: t) [] := by
        rw [receive_eq_fold]
        simp [Driver.init, foldl_stepByte_of_not_mem (c :: t) [] [] hnomem]
      rw [hstate]
      simp [Driver.get]
  · intro g m hm
    have hnm : END ∉ encode m := by
      rw [encode_eq_escapeEach]
      exact end_not_mem_escapeEach m
    have hstate : (Driver.init g).receive (encode m ++ [END])
        = Driver.mk (Driver.init g)._leading false [] [encode m] := by
      rw [receive_eq_fold]
      have hne : encode m ++ [END] ≠ [] := by simp
      simp only [if_neg hne, Driver.init, List.nil_append]
      rw [List.foldl_append, foldl_stepByte_of_not_mem (encode m) [] [] hnm,
        List.nil_append]
      simp [stepByte, encode_ne_nil m hm]
    rw [hstate]
    simp [Driver.get, decode_encode m, Driver.init]

/-- Claim C7 witness: the fragmented frame of the message `[104]`: `get` is
not-yet-available after the first byte alone, and yields the message after the
whole frame. -/
theorem fragmentation_invariance_witness :
    1 < (encode [104] ++ [END]).length ∧
      ((receiveAll (Driver.init initialGlobalState)
          (((encode [104] ++ [END]).take 1).map (fun b => [b]))).get).1
        = GetResult.notAvailable
    ∧ ([104] : List Nat) ≠ [] ∧
      ((Driver.init initialGlobalState).receive (encode [104] ++ [END])).get
        = (GetResult.msg [104], Driver.init initialGlobalState) :=
  ⟨by decide, fragmentation_invariance.2.1 initialGlobalState [104] 1 (by decide),
   by decide, fragmentation_invariance.2.2 initialGlobalState [104] (by decide)⟩
